import Mathlib

/-!
Verification of the Goa land-record analysis program
(`data/amche-plot-geocoder/analyze_plot_info.py`).

Strings are modelled as `List Char`.  The two core routines are embedded
faithfully from the source:

* `clean_multiline_csv` — the quote-parity record reassembler
  (source lines 39–84), modelled on the list of physical lines.
* `parse_owners_raw_field` — the free-text owners-field extractor
  (source lines 87–211), including its regex section isolation,
  numbered-list / separator splitting, name cleaning, deduplication and
  remarks removal.  Each Python regex is translated into an explicit
  backtracking-faithful scanning function.
* `is_comunidade` / `is_government` — the keyword classifiers
  (source lines 277–302 and 346–362).

The input of `parse_owners_raw_field` is `Option (List Char)`: `none`
models a missing (NaN) or non-string cell, `some raw` a string cell.
-/

/-- Python whitespace for `str.strip` and the regex class `\s`
(space, tab, newline, carriage return, vertical tab, form feed). -/
def pyIsSpace (c : Char) : Bool :=
  c == ' ' || c == '\t' || c == '\n' || c == '\r' || c.val == 11 || c.val == 12

/-- Python `str.strip()`: drop whitespace from both ends. -/
def pyStrip (l : List Char) : List Char :=
  ((l.dropWhile pyIsSpace).reverse.dropWhile pyIsSpace).reverse

/-- Number of double-quote characters in a line (`line.count('"')`). -/
def quoteCount (l : List Char) : Nat :=
  (l.filter (fun c => c == '"')).length

/-- Core loop of `clean_multiline_csv` (source lines 55–76).  State:
`inField` is the `in_multiline_field` flag, `acc` the accumulated
`multiline_content`.  The loop ends without flushing `acc`. -/
def cleanAux : Bool → List (List Char) → List (List Char) → List (List Char)
  | _, _, [] => []
  | false, acc, l :: ls =>
    if quoteCount l % 2 = 1 then cleanAux true [l] ls
    else if pyStrip l ≠ [] then l :: cleanAux false acc ls
    else cleanAux false acc ls
  | true, acc, l :: ls =>
    if quoteCount l % 2 = 1 then
      List.intercalate [' '] (acc ++ [l]) :: cleanAux false [] ls
    else cleanAux true (acc ++ [l]) ls

/-- The record reassembler `clean_multiline_csv`, modelled from the list
of physical lines to the list of logical output lines. -/
def clean_multiline_csv (lines : List (List Char)) : List (List Char) :=
  cleanAux false [] lines

/-- A single non-blank line with an even number of quotes is emitted
unchanged, from any outside-a-quoted-field state. -/
theorem cleanAux_even_line (acc : List (List Char)) (ls : List (List Char))
    (l : List Char) (hb : pyStrip l ≠ []) (he : quoteCount l % 2 = 0) :
    cleanAux false acc (l :: ls) = l :: cleanAux false acc ls := by
  simp [cleanAux, he, hb]

/-- Two consecutive odd-quote lines, starting outside a quoted field, are
merged into exactly one space-joined logical line. -/
theorem cleanAux_odd_pair (acc : List (List Char)) (ls : List (List Char))
    (l₁ l₂ : List Char) (h₁ : quoteCount l₁ % 2 = 1) (h₂ : quoteCount l₂ % 2 = 1) :
    cleanAux false acc (l₁ :: l₂ :: ls) =
      (l₁ ++ ' ' :: l₂) :: cleanAux false [] ls := by
  simp [cleanAux, h₁, h₂, List.intercalate]

/-- C5: the reassembler round trip.  A single non-blank balanced-quote
line passes through unchanged as one logical line, and a pair of
consecutive odd-quote lines (starting outside a quoted field) becomes
exactly one logical line, the two lines joined by a single space. -/
theorem reassembler_round_trip :
    (∀ l : List Char, pyStrip l ≠ [] → quoteCount l % 2 = 0 →
      clean_multiline_csv [l] = [l]) ∧
    (∀ l₁ l₂ : List Char, quoteCount l₁ % 2 = 1 → quoteCount l₂ % 2 = 1 →
      clean_multiline_csv [l₁, l₂] = [l₁ ++ ' ' :: l₂]) := by
  constructor
  · intro l hb he
    simp [clean_multiline_csv, cleanAux, he, hb]
  · intro l₁ l₂ h₁ h₂
    simp [clean_multiline_csv, cleanAux, h₁, h₂, List.intercalate]

/-- Witness for `reassembler_round_trip` at concrete lines. -/
theorem reassembler_round_trip_witness :
    clean_multiline_csv [('a' :: 'b' :: [])] = [('a' :: 'b' :: [])] ∧
    clean_multiline_csv [('x' :: '"' :: []), ('"' :: 'y' :: [])] =
      [('x' :: '"' :: ' ' :: '"' :: 'y' :: [])] :=
  ⟨reassembler_round_trip.1 _ (by decide) (by decide),
   reassembler_round_trip.2 _ _ (by decide) (by decide)⟩

/-- From inside a quoted field, if every remaining line has an even quote
count, nothing further is ever emitted: the accumulated partial record is
dropped. -/
theorem cleanAux_inside_no_close (ls : List (List Char))
    (h : ∀ r ∈ ls, quoteCount r % 2 = 0) :
    ∀ acc, cleanAux true acc ls = [] := by
  induction ls with
  | nil => intro acc; rfl
  | cons l ls ih =>
    intro acc
    have hl : quoteCount l % 2 = 0 := h l (List.mem_cons_self l ls)
    have hodd : ¬ quoteCount l % 2 = 1 := by omega
    have := ih (fun r hr => h r (List.mem_cons_of_mem l hr))
    simp [cleanAux, hodd, this]

/-- C6: a file that opens a quoted field and never closes it produces no
output at all from that point: the accumulated partial record does not
appear in the output (no final flush). -/
theorem reassembler_drops_unclosed (l : List Char) (rest : List (List Char))
    (hopen : quoteCount l % 2 = 1)
    (hrest : ∀ r ∈ rest, quoteCount r % 2 = 0) :
    clean_multiline_csv (l :: rest) = [] := by
  simp [clean_multiline_csv, cleanAux, hopen]
  exact cleanAux_inside_no_close rest hrest [l]

/-- Witness for `reassembler_drops_unclosed` at a concrete truncated file. -/
theorem reassembler_drops_unclosed_witness :
    clean_multiline_csv [('a' :: '"' :: 'b' :: []), ('c' :: 'd' :: [])] = [] :=
  reassembler_drops_unclosed _ _ (by decide) (by decide)

/-- Case-insensitive literal match of `pat` at the head of `t`; on success
returns the remaining suffix.  Models a literal in an `re.IGNORECASE`
pattern. -/
def matchCI : List Char → List Char → Option (List Char)
  | [], t => some t
  | _ :: _, [] => none
  | p :: ps, c :: cs => if p.toLower == c.toLower then matchCI ps cs else none

/-- Match a label of the form `word\s*:` (case-insensitive), returning the
suffix after the colon. -/
def labelColon (word : List Char) (t : List Char) : Option (List Char) :=
  match matchCI word t with
  | none => none
  | some r =>
    match r.dropWhile pyIsSpace with
    | ':' :: r₂ => some r₂
    | _ => none

/-- The label `Occupants Names\s*:` of the occupants regex (source line 122). -/
def occLabel (t : List Char) : Option (List Char) :=
  labelColon ("occupants names".data) t

/-- The label `Tenants\s+names\s*:` of the tenants regex (source line 123). -/
def tenLabel (t : List Char) : Option (List Char) :=
  match matchCI ("tenants".data) t with
  | none => none
  | some r =>
    if (r.takeWhile pyIsSpace).isEmpty then none
    else
      match matchCI ("names".data) (r.dropWhile pyIsSpace) with
      | none => none
      | some r₂ =>
        match r₂.dropWhile pyIsSpace with
        | ':' :: r₃ => some r₃
        | _ => none

/-- The label `Total Area\s*:`. -/
def totalLabel (t : List Char) : Option (List Char) :=
  labelColon ("total area".data) t

/-- Does `pat` occur literally at the head of `t`? -/
def startsWith : List Char → List Char → Bool
  | [], _ => true
  | _ :: _, [] => false
  | p :: ps, c :: cs => p == c && startsWith ps cs

/-- The lookahead alternative `-------` (seven dashes; the nine-dash
alternative of the source regex is subsumed by it). -/
def dash7 (t : List Char) : Bool :=
  startsWith ("-------".data) t

/-- The lookahead of the occupants regex:
`(?=Tenants\s+names\s*:|Total Area\s*:|-------|---------|\Z)`. -/
def occBound (t : List Char) : Bool :=
  (tenLabel t).isSome || (totalLabel t).isSome || dash7 t || t.isEmpty

/-- The lookahead of the tenants regex:
`(?=Total Area\s*:|-------|---------|\Z)`. -/
def tenBound (t : List Char) : Bool :=
  (totalLabel t).isSome || dash7 t || t.isEmpty

/-- The lazy group `(.+?)(?=B)`: the shortest nonempty prefix of `s` such
that the lookahead `B` holds right after it. -/
def lazyCapture (B : List Char → Bool) : List Char → Option (List Char)
  | [] => none
  | c :: rest => if B rest then some [c] else (lazyCapture B rest).map (c :: ·)

/-- Backtracking over the greedy `\s*` before the group: try the longest
whitespace skip `k` first, shrinking on failure. -/
def wsBacktrack (B : List Char → Bool) (r : List Char) : Nat → Option (List Char)
  | 0 => lazyCapture B r
  | k + 1 =>
    match lazyCapture B (r.drop (k + 1)) with
    | some cap => some cap
    | none => wsBacktrack B r k

/-- The part `\s*(.+?)(?=B)` of the section regexes, applied to the suffix
after the label colon. -/
def captureGroup (B : List Char → Bool) (r : List Char) : Option (List Char) :=
  wsBacktrack B r ((r.takeWhile pyIsSpace).length)

/-- Leftmost `re.search`: try a full match (label, then whitespace and lazy
group) at each position of `t` from the left. -/
def searchCapture (label : List Char → Option (List Char))
    (B : List Char → Bool) : List Char → Option (List Char)
  | [] => none
  | c :: rest =>
    match label (c :: rest) with
    | some r =>
      match captureGroup B r with
      | some cap => some cap
      | none => searchCapture label B rest
    | none => searchCapture label B rest

/-- The group captured by
`Occupants Names\s*:\s*(.+?)(?=Tenants\s+names\s*:|Total Area\s*:|-------|---------|\Z)`
with flags `DOTALL | IGNORECASE` (source line 122). -/
def occSearch (t : List Char) : Option (List Char) :=
  searchCapture occLabel occBound t

/-- The group captured by
`Tenants\s+names\s*:\s*(.+?)(?=Total Area\s*:|-------|---------|\Z)`
with flags `DOTALL | IGNORECASE` (source line 123). -/
def tenSearch (t : List Char) : Option (List Char) :=
  searchCapture tenLabel tenBound t

/-- One match of the numbered-marker pattern `\d+\)\.\s*` at the head of
`t` (used by `re.split` on source lines 132 and 161): a maximal digit run
followed by a close parenthesis, a period, then greedy whitespace.
Returns the suffix after the match. -/
def numMarkerAt (t : List Char) : Option (List Char) :=
  if (t.takeWhile Char.isDigit).isEmpty then none
  else
    match t.drop (t.takeWhile Char.isDigit).length with
    | ')' :: '.' :: r => some (r.dropWhile pyIsSpace)
    | _ => none

theorem numMarkerAt_length_lt {t r : List Char} (h : numMarkerAt t = some r) :
    r.length < t.length := by
  unfold numMarkerAt at h
  split at h
  · exact absurd h (by simp)
  · rename_i hne
    split at h
    · rename_i r' heq
      have h₁ : (t.takeWhile Char.isDigit).length ≤ t.length :=
        (List.takeWhile_sublist _).length_le
      have h₂ : ¬ (t.takeWhile Char.isDigit).length = 0 := by
        intro h0
        exact hne (by simpa [List.isEmpty_iff, List.length_eq_zero] using h0)
      have h₃ : (t.drop (t.takeWhile Char.isDigit).length).length =
          t.length - (t.takeWhile Char.isDigit).length := t.length_drop _
      rw [heq] at h₃
      have h₄ : (r'.dropWhile pyIsSpace).length ≤ r'.length :=
        (List.dropWhile_sublist _).length_le
      have h₅ : r = r'.dropWhile pyIsSpace := by
        simpa using h.symm
      subst h₅
      simp at h₃
      omega
    · exact absurd h (by simp)

/-- Does the text contain a numbered-list marker `\d+\)\.`
(`re.search` on source lines 130 and 159)? -/
def hasNumMarker : List Char → Bool
  | [] => false
  | c :: rest => (numMarkerAt (c :: rest)).isSome || hasNumMarker rest

/-- Left-to-right scan of `re.split(r'\d+\)\.\s*', s)`: `acc` holds the
current piece, reversed.  The first argument is a structural bound on the
number of steps; by `numMarkerAt_length_lt` every marker consumes at
least one character, so a bound equal to the length of the text is never
exhausted (the zero-and-nonempty branch is unreachable from `splitNum`). -/
def splitNumAux : Nat → List Char → List Char → List (List Char)
  | _, acc, [] => [acc.reverse]
  | 0, acc, rest => [acc.reverse ++ rest]
  | bound + 1, acc, c :: rest =>
    match numMarkerAt (c :: rest) with
    | some r => acc.reverse :: splitNumAux bound [] r
    | none => splitNumAux bound (c :: acc) rest

/-- `re.split(r'\d+\)\.\s*', s)` (source lines 132 and 161). -/
def splitNum (s : List Char) : List (List Char) :=
  splitNumAux s.length [] s

/-- One match of the tenant separator pattern `[,;]\s*|\s+and\s+`
(source line 164) at the head of `t`, returning the suffix after it. -/
def sepMarkerAt (t : List Char) : Option (List Char) :=
  match t with
  | ',' :: r => some (r.dropWhile pyIsSpace)
  | ';' :: r => some (r.dropWhile pyIsSpace)
  | _ =>
    if (t.takeWhile pyIsSpace).isEmpty then none
    else
      match t.drop (t.takeWhile pyIsSpace).length with
      | 'a' :: 'n' :: 'd' :: r₂ =>
        if (r₂.takeWhile pyIsSpace).isEmpty then none
        else some (r₂.dropWhile pyIsSpace)
      | _ => none

theorem sepMarkerAt_length_lt {t r : List Char} (h : sepMarkerAt t = some r) :
    r.length < t.length := by
  unfold sepMarkerAt at h
  split at h
  · rename_i r'
    cases h
    have : (r'.dropWhile pyIsSpace).length ≤ r'.length :=
      (List.dropWhile_sublist _).length_le
    simp
    omega
  · rename_i r'
    cases h
    have : (r'.dropWhile pyIsSpace).length ≤ r'.length :=
      (List.dropWhile_sublist _).length_le
    simp
    omega
  · rename_i hno
    split at h
    · exact absurd h (by simp)
    · rename_i hne
      split at h
      · rename_i r₂ heq
        split at h
        · exact absurd h (by simp)
        · have h₁ : (t.takeWhile pyIsSpace).length ≤ t.length :=
            (List.takeWhile_sublist _).length_le
          have h₂ : ¬ (t.takeWhile pyIsSpace).length = 0 := by
            intro h0
            exact hne (by simpa [List.isEmpty_iff, List.length_eq_zero] using h0)
          have h₃ : (t.drop (t.takeWhile pyIsSpace).length).length =
              t.length - (t.takeWhile pyIsSpace).length := t.length_drop _
          rw [heq] at h₃
          have h₄ : (r₂.dropWhile pyIsSpace).length ≤ r₂.length :=
            (List.dropWhile_sublist _).length_le
          have h₅ : r = r₂.dropWhile pyIsSpace := by simpa using h.symm
          subst h₅
          simp at h₃
          omega
      · exact absurd h (by simp)

/-- Left-to-right scan of `re.split(r'[,;]\s*|\s+and\s+', s)`, with the
same structural step bound as `splitNumAux` (justified by
`sepMarkerAt_length_lt`). -/
def splitSepAux : Nat → List Char → List Char → List (List Char)
  | _, acc, [] => [acc.reverse]
  | 0, acc, rest => [acc.reverse ++ rest]
  | bound + 1, acc, c :: rest =>
    match sepMarkerAt (c :: rest) with
    | some r => acc.reverse :: splitSepAux bound [] r
    | none => splitSepAux bound (c :: acc) rest

/-- `re.split(r'[,;]\s*|\s+and\s+', s)` (source line 164). -/
def splitSep (s : List Char) : List (List Char) :=
  splitSepAux s.length [] s

/-- The symbol class of the prefix-stripping pattern `^[%#&*!@$^()]+\s*`
(source lines 142 and 172). -/
def symbolChar (c : Char) : Bool :=
  c == '%' || c == '#' || c == '&' || c == '*' || c == '!' ||
  c == '@' || c == '$' || c == '^' || c == '(' || c == ')'

/-- `re.sub(r'^[%#&*!@$^()]+\s*', '', part)`: remove one leading run of
symbol characters together with the following whitespace run. -/
def stripLeadingSymbols (l : List Char) : List Char :=
  if (l.takeWhile symbolChar).isEmpty then l
  else (l.dropWhile symbolChar).dropWhile pyIsSpace

/-- `re.sub(r'[,\s\n\r]+$', '', l)`: remove the trailing run of commas and
whitespace. -/
def stripTrailingCommaWs (l : List Char) : List Char :=
  (l.reverse.dropWhile (fun c => c == ',' || pyIsSpace c)).reverse

/-- One-pass scan behind `collapseWs`: `afterWs` records whether the
previous character belonged to a whitespace run whose single replacement
space was already emitted. -/
def collapseWsAux : Bool → List Char → List Char
  | _, [] => []
  | afterWs, c :: rest =>
    if pyIsSpace c then
      if afterWs then collapseWsAux true rest
      else ' ' :: collapseWsAux true rest
    else c :: collapseWsAux false rest

/-- `re.sub(r'\s+', ' ', l)`: collapse every whitespace run to a single
space. -/
def collapseWs (l : List Char) : List Char :=
  collapseWsAux false l

/-- The name-cleaning pipeline applied to one already-stripped fragment
(source lines 142–146, identically 172–175). -/
def cleanName (part : List Char) : List Char :=
  collapseWs (pyStrip (stripTrailingCommaWs (pyStrip (stripLeadingSymbols part))))

/-- The case-insensitive placeholder tokens of source lines 148 and 177. -/
def placeholderList : List (List Char) :=
  [("nil".data), ("null".data), ("none".data), ("na".data), ("n/a".data), ("-".data)]

/-- Lowercasing, modelling Python `str.lower()` on the data at hand. -/
def lowerL (l : List Char) : List Char :=
  l.map Char.toLower

/-- The guard `cleaned_name and cleaned_name.lower() not in [...]` of
source lines 148 and 177 (without the duplicate check). -/
def acceptable (n : List Char) : Bool :=
  decide (n ≠ []) && decide (lowerL n ∉ placeholderList)

/-- The per-fragment loop of source lines 138–149 (and 168–178): strip
the fragment, skip it if blank, clean it, and append it unless it is
unacceptable or already present. -/
def addNames : List (List Char) → List (List Char) → List (List Char)
  | [], names => names
  | part :: rest, names =>
    if pyStrip part = [] then addNames rest names
    else if acceptable (cleanName (pyStrip part)) = true ∧
        cleanName (pyStrip part) ∉ names then
      addNames rest (names ++ [cleanName (pyStrip part)])
    else addNames rest names

/-- Occupant fragment choice (source lines 130–135): split on numbered
markers when present, otherwise the whole section is one fragment. -/
def occParts (s : List Char) : List (List Char) :=
  if hasNumMarker s then splitNum s else [s]

/-- Tenant fragment choice (source lines 159–164): split on numbered
markers when present, otherwise split on commas, semicolons, or the word
and surrounded by whitespace. -/
def tenParts (s : List Char) : List (List Char) :=
  if hasNumMarker s then splitNum s else splitSep s

/-- The lazy group `X*?(?=B)` over characters satisfying `allowed`
(`[^:]*?` or, with `allowed` constantly true under DOTALL, `.*?`): consume
the fewest allowed characters, possibly none, until the lookahead holds.
Returns the suffix after the consumed part. -/
def lazyZero (B : List Char → Bool) (allowed : Char → Bool) : List Char → Option (List Char)
  | [] => if B [] then some [] else none
  | c :: rest =>
    if B (c :: rest) then some (c :: rest)
    else if allowed c then lazyZero B allowed rest
    else none

theorem lazyZero_length_le {B : List Char → Bool} {allowed : Char → Bool} :
    ∀ {t r : List Char}, lazyZero B allowed t = some r → r.length ≤ t.length := by
  intro t
  induction t with
  | nil =>
    intro r h
    unfold lazyZero at h
    split at h
    · cases h; exact Nat.le_refl _
    · exact absurd h (by simp)
  | cons c rest ih =>
    intro r h
    unfold lazyZero at h
    split at h
    · cases h; exact Nat.le_refl _
    · split at h
      · have := ih h
        simp
        omega
      · exact absurd h (by simp)

theorem matchCI_length : ∀ {p t r : List Char}, matchCI p t = some r →
    r.length + p.length = t.length := by
  intro p
  induction p with
  | nil =>
    intro t r h
    cases h
    simp
  | cons x ps ih =>
    intro t r h
    cases t with
    | nil => exact absurd h (by simp [matchCI])
    | cons c cs =>
      unfold matchCI at h
      split at h
      · have := ih h
        simp at this ⊢
        omega
      · exact absurd h (by simp)

theorem labelColon_length_lt {w t r : List Char} (hw : w ≠ [])
    (h : labelColon w t = some r) : r.length < t.length := by
  unfold labelColon at h
  split at h
  · exact absurd h (by simp)
  · rename_i r₁ hm
    split at h
    · rename_i r₂ hd
      cases h
      have h₁ : r₁.length + w.length = t.length := matchCI_length hm
      have h₂ : (r₁.dropWhile pyIsSpace).length ≤ r₁.length :=
        (List.dropWhile_sublist _).length_le
      rw [hd] at h₂
      have h₃ : 0 < w.length := List.length_pos.mpr hw
      simp at h₂
      omega
    · exact absurd h (by simp)

theorem tenLabel_length_lt {t r : List Char} (h : tenLabel t = some r) :
    r.length < t.length := by
  unfold tenLabel at h
  split at h
  · exact absurd h (by simp)
  · rename_i r₁ hm
    split at h
    · exact absurd h (by simp)
    · split at h
      · exact absurd h (by simp)
      · rename_i r₂ hm₂
        split at h
        · rename_i r₃ hd
          cases h
          have h₁ : r₁.length + 7 = t.length := matchCI_length hm
          have h₂ : (r₁.dropWhile pyIsSpace).length ≤ r₁.length :=
            (List.dropWhile_sublist _).length_le
          have h₃ : r₂.length + 5 = (r₁.dropWhile pyIsSpace).length := matchCI_length hm₂
          have h₄ : (r₂.dropWhile pyIsSpace).length ≤ r₂.length :=
            (List.dropWhile_sublist _).length_le
          rw [hd] at h₄
          simp at h₄
          omega
        · exact absurd h (by simp)

/-- Lookahead alternative of the form `\s+Word` (at least one whitespace
character, then the case-insensitive literal). -/
def wsThen (word : List Char) (t : List Char) : Bool :=
  !(t.takeWhile pyIsSpace).isEmpty && (matchCI word (t.dropWhile pyIsSpace)).isSome

/-- Lookahead alternative `Tenants\s+names` (no colon; used by the
remark-removal patterns of source lines 191–193). -/
def tenantsWordsB (t : List Char) : Bool :=
  match matchCI ("tenants".data) t with
  | none => false
  | some r => wsThen ("names".data) r

/-- Lookahead of the `Taluka Name` removal pattern (source line 191). -/
def look1 (t : List Char) : Bool :=
  wsThen ("village name".data) t || (matchCI ("subdiv no".data) t).isSome ||
  (matchCI ("occupants names".data) t).isSome || tenantsWordsB t ||
  (matchCI ("total area".data) t).isSome || t.isEmpty

/-- Lookahead of the `Village Name` removal pattern (source line 192). -/
def look2 (t : List Char) : Bool :=
  wsThen ("subdiv no".data) t || (matchCI ("occupants names".data) t).isSome ||
  tenantsWordsB t || (matchCI ("total area".data) t).isSome || t.isEmpty

/-- Lookahead of the `Subdiv No` removal pattern (source line 193). -/
def look3 (t : List Char) : Bool :=
  wsThen ("occupants names".data) t || tenantsWordsB t ||
  (matchCI ("total area".data) t).isSome || t.isEmpty

/-- A dash or equals sign, the class `[-=]`. -/
def isDashEq (c : Char) : Bool :=
  c == '-' || c == '='

/-- Three dash-or-equals characters ahead, the lookahead form of
`[-=]{3,}`. -/
def dashEqRun3 (t : List Char) : Bool :=
  match t with
  | a :: b :: c :: _ => isDashEq a && isDashEq b && isDashEq c
  | _ => false

/-- Lookahead `\s*[-=]{3,}|\Z` of the `Total Area` removal pattern
(source line 194). -/
def look4 (t : List Char) : Bool :=
  dashEqRun3 (t.dropWhile pyIsSpace) || t.isEmpty

/-- A removal pattern `label[^:]*?(?=look)`: one match at the head of
`t`, returning the suffix after it. -/
def fieldMatcher (label : List Char → Option (List Char)) (look : List Char → Bool)
    (t : List Char) : Option (List Char) :=
  match label t with
  | none => none
  | some r => lazyZero look (fun c => !(c == ':')) r

/-- Removal pattern 1, `Taluka Name\s*:[^:]*?(?=...)` (source line 191). -/
def remPat1 (t : List Char) : Option (List Char) :=
  fieldMatcher (labelColon ("taluka name".data)) look1 t

/-- Removal pattern 2, `Village Name\s*:[^:]*?(?=...)` (source line 192). -/
def remPat2 (t : List Char) : Option (List Char) :=
  fieldMatcher (labelColon ("village name".data)) look2 t

/-- Removal pattern 3, `Subdiv No\s*:[^:]*?(?=...)` (source line 193). -/
def remPat3 (t : List Char) : Option (List Char) :=
  fieldMatcher (labelColon ("subdiv no".data)) look3 t

/-- Removal pattern 4, `Total Area\s*:[^:]*?(?=\s*[-=]{3,}|\Z)`
(source line 194). -/
def remPat4 (t : List Char) : Option (List Char) :=
  fieldMatcher totalLabel look4 t

/-- Removal pattern 5, `Occupants Names\s*:.*?(?=...)` (source line 195),
with the same lookahead as the section regex. -/
def remPat5 (t : List Char) : Option (List Char) :=
  match occLabel t with
  | none => none
  | some r => lazyZero occBound (fun _ => true) r

/-- Removal pattern 6, `Tenants\s+names\s*:.*?(?=...)` (source line 196). -/
def remPat6 (t : List Char) : Option (List Char) :=
  match tenLabel t with
  | none => none
  | some r => lazyZero tenBound (fun _ => true) r

/-- Removal pattern 7, `[-=]{3,}` (source line 197): a maximal run of at
least three dashes or equals signs. -/
def remPat7 (t : List Char) : Option (List Char) :=
  if 3 ≤ (t.takeWhile isDashEq).length then some (t.drop (t.takeWhile isDashEq).length)
  else none

theorem fieldMatcher_length_lt {label : List Char → Option (List Char)}
    {look : List Char → Bool}
    (hl : ∀ t r, label t = some r → r.length < t.length) :
    ∀ t r, fieldMatcher label look t = some r → r.length < t.length := by
  intro t r h
  unfold fieldMatcher at h
  split at h
  · exact absurd h (by simp)
  · rename_i r₁ hm
    have := lazyZero_length_le h
    have := hl t r₁ hm
    omega

theorem remPat1_length_lt : ∀ t r, remPat1 t = some r → r.length < t.length :=
  fieldMatcher_length_lt (fun _ _ h => labelColon_length_lt (by decide) h)

theorem remPat2_length_lt : ∀ t r, remPat2 t = some r → r.length < t.length :=
  fieldMatcher_length_lt (fun _ _ h => labelColon_length_lt (by decide) h)

theorem remPat3_length_lt : ∀ t r, remPat3 t = some r → r.length < t.length :=
  fieldMatcher_length_lt (fun _ _ h => labelColon_length_lt (by decide) h)

theorem remPat4_length_lt : ∀ t r, remPat4 t = some r → r.length < t.length :=
  fieldMatcher_length_lt (fun _ _ h => labelColon_length_lt (by decide) h)

theorem remPat5_length_lt : ∀ t r, remPat5 t = some r → r.length < t.length := by
  intro t r h
  unfold remPat5 at h
  split at h
  · exact absurd h (by simp)
  · rename_i r₁ hm
    have := lazyZero_length_le h
    have := labelColon_length_lt (w := ("occupants names".data)) (by decide) hm
    omega

theorem remPat6_length_lt : ∀ t r, remPat6 t = some r → r.length < t.length := by
  intro t r h
  unfold remPat6 at h
  split at h
  · exact absurd h (by simp)
  · rename_i r₁ hm
    have := lazyZero_length_le h
    have := tenLabel_length_lt hm
    omega

theorem remPat7_length_lt : ∀ t r, remPat7 t = some r → r.length < t.length := by
  intro t r h
  unfold remPat7 at h
  split at h
  · rename_i h3
    cases h
    have h₁ : (t.takeWhile isDashEq).length ≤ t.length :=
      (List.takeWhile_sublist _).length_le
    simp
    omega
  · exact absurd h (by simp)

/-- `re.sub(pattern, '', text)` for a pattern whose matches are nonempty:
scan left to right, removing each match. -/
def subAll (m : List Char → Option (List Char))
    (hm : ∀ t r, m t = some r → r.length < t.length) : List Char → List Char
  | [] => []
  | c :: rest =>
    match h : m (c :: rest) with
    | some r => subAll m hm r
    | none => c :: subAll m hm rest
termination_by l => l.length
decreasing_by
  · exact hm _ _ h
  · simp

/-- The anchor `$` under MULTILINE: end of text or immediately before a
newline. -/
def dollarB (t : List Char) : Bool :=
  t.isEmpty || t.head? == some '\n'

/-- Greedy backtracking for `\s*$`: try the longest whitespace skip first,
shrinking until the anchor holds. -/
def blankDescend (t : List Char) : Nat → Option (List Char)
  | 0 => if dollarB t then some t else none
  | k + 1 =>
    if dollarB (t.drop (k + 1)) then some (t.drop (k + 1)) else blankDescend t k

/-- One match of `^\s*$` at a line-start position (the match may be
empty); returns the suffix after the match. -/
def blankMatch (t : List Char) : Option (List Char) :=
  blankDescend t ((t.takeWhile pyIsSpace).length)

theorem blankDescend_length_le {t r : List Char} :
    ∀ {k : Nat}, blankDescend t k = some r → r.length ≤ t.length := by
  intro k
  induction k with
  | zero =>
    intro h
    unfold blankDescend at h
    split at h
    · cases h; exact Nat.le_refl _
    · exact absurd h (by simp)
  | succ k ih =>
    intro h
    unfold blankDescend at h
    split at h
    · cases h
      simp
    · exact ih h

/-- `re.sub(r'^\s*$', '', text, flags=MULTILINE|...)` (source line 198):
scan, attempting a blank-line match at every line-start position; an
empty match keeps the current character and advances. -/
def sub8 : Bool → List Char → List Char
  | _, [] => []
  | atLS, c :: rest =>
    if atLS then
      match h : blankMatch (c :: rest) with
      | some r =>
        if hl : r.length = rest.length + 1 then c :: sub8 (c == '\n') rest
        else sub8 (((c :: rest).getD (rest.length - r.length) ' ') == '\n') r
      | none => c :: sub8 (c == '\n') rest
    else c :: sub8 (c == '\n') rest
termination_by _ l => l.length
decreasing_by
  · simp
  · have := blankDescend_length_le h
    simp at this ⊢
    omega
  · simp
  · simp

/-- `re.sub(r'\n+', ' ', text)` (source line 205): collapse newline runs
to a single space. -/
def collapseNl : List Char → List Char
  | [] => []
  | c :: rest =>
    if c == '\n' then ' ' :: collapseNl (rest.dropWhile (fun d => d == '\n'))
    else c :: collapseNl rest
termination_by l => l.length
decreasing_by
  · have : (rest.dropWhile (fun d => d == '\n')).length ≤ rest.length :=
      (List.dropWhile_sublist _).length_le
    simp
    omega
  · simp

/-- The remark extraction of source lines 184–209: remove the eight
standard-field patterns in order, then collapse newlines and whitespace
and strip. -/
def remarksOf (text : List Char) : List Char :=
  let t₁ := subAll remPat1 remPat1_length_lt text
  let t₂ := subAll remPat2 remPat2_length_lt t₁
  let t₃ := subAll remPat3 remPat3_length_lt t₂
  let t₄ := subAll remPat4 remPat4_length_lt t₃
  let t₅ := subAll remPat5 remPat5_length_lt t₄
  let t₆ := subAll remPat6 remPat6_length_lt t₅
  let t₇ := subAll remPat7 remPat7_length_lt t₆
  let t₈ := sub8 true t₇
  pyStrip (collapseWs (collapseNl t₈))

/-- The extractor result (source lines 92–98 and 112–118). -/
structure ParsedOwnerInfo where
  occupant_count : Nat
  occupant_names : List (List Char)
  tenant_count : Nat
  tenant_names : List (List Char)
  remarks : List Char
deriving Repr, DecidableEq

/-- The all-default result returned for missing or non-string input
(source lines 100–107). -/
def defaultParsedOwnerInfo : ParsedOwnerInfo :=
  ⟨0, [], 0, [], []⟩

/-- The land-record field extractor `parse_owners_raw_field`
(source lines 87–211).  `none` models a missing (NaN) or non-string cell.
The function is total by construction: it never raises. -/
def parse_owners_raw_field (x : Option (List Char)) : ParsedOwnerInfo :=
  match x with
  | none => defaultParsedOwnerInfo
  | some raw =>
    let text := pyStrip raw
    let occNames :=
      match occSearch text with
      | none => []
      | some cap => addNames (occParts (pyStrip cap)) []
    let tenNames :=
      match tenSearch text with
      | none => []
      | some cap => addNames (tenParts (pyStrip cap)) []
    ⟨occNames.length, occNames, tenNames.length, tenNames, remarksOf text⟩

/-- Does `pat` occur as a contiguous substring of `t`? -/
def containsSeq (pat : List Char) : List Char → Bool
  | [] => pat.isEmpty
  | c :: rest => startsWith pat (c :: rest) || containsSeq pat rest

/-- The comunidade spelling variants of source lines 278–286. -/
def comunidade_variations : List (List Char) :=
  [("Comminidade".data), ("Commmunidade".data), ("Commnnidade".data),
   ("Commnunidade".data), ("Commonidade".data), ("Commudade".data),
   ("Commudidade".data), ("Commuidade".data), ("Commundade".data),
   ("Commundiade".data), ("Communiade".data), ("Communicade".data),
   ("Communid".data), ("Communida".data), ("Communidad".data),
   ("Communidad3e".data), ("Communidada".data), ("Communidade".data),
   ("Communidadee".data), ("Communidae".data), ("Communidaede".data),
   ("Communidasde".data), ("Communiddade".data), ("Communidde".data),
   ("Communide".data), ("Communidede".data), ("Communindade".data),
   ("Communnidade".data), ("Communudade".data), ("Comuidade".data),
   ("Comundiade".data), ("Comuniade".data), ("Comunidad".data),
   ("Comunidade".data), ("Comunidae".data)]

/-- The government keyword list of source lines 347–350 (all entries are
regex-escaped literals in the source). -/
def government_keywords : List (List Char) :=
  [("government".data), ("govt".data), ("railway".data), (" rly ".data),
   ("block  ".data), ("forest".data), (" engineer".data), ("officer".data),
   ("department".data), ("ministry".data), ("division".data)]

/-- Case-insensitive containment test used by
`str.contains(pattern, case=False, regex=True)` on an alternation of
literals. -/
def containsCI (pat raw : List Char) : Bool :=
  containsSeq (lowerL pat) (lowerL raw)

/-- The comunidade classifier (source lines 288–294). -/
def is_comunidade (raw : List Char) : Bool :=
  comunidade_variations.any (fun v => containsCI v raw)

/-- The government classifier (source lines 352–357). -/
def is_government (raw : List Char) : Bool :=
  government_keywords.any (fun v => containsCI v raw)

theorem startsWith_append : ∀ (p r : List Char), startsWith p (p ++ r) = true := by
  intro p r
  induction p with
  | nil => rfl
  | cons c cs ih => simp [startsWith, ih]

theorem containsSeq_nil : ∀ (r : List Char), containsSeq [] r = true := by
  intro r
  cases r with
  | nil => rfl
  | cons c cs => simp [containsSeq, startsWith]

theorem containsSeq_of_append : ∀ (l p r : List Char),
    containsSeq p (l ++ p ++ r) = true := by
  intro l p r
  induction l with
  | nil =>
    cases p with
    | nil => exact containsSeq_nil r
    | cons c cs =>
      show containsSeq (c :: cs) (c :: (cs ++ r)) = true
      have hs : startsWith (c :: cs) (c :: (cs ++ r)) = true :=
        startsWith_append (c :: cs) r
      simp [containsSeq, hs]
  | cons c cs ih =>
    have : containsSeq p ((c :: cs) ++ p ++ r) =
        (startsWith p (c :: (cs ++ p ++ r)) || containsSeq p (cs ++ p ++ r)) := by
      simp [containsSeq]
    rw [this, ih]
    simp

/-- C7: a raw owners text containing the exact substring
Comunidade of Tiswadi is classified as comunidade (the variant list
contains Comunidade), and one containing Forest Department, Panaji is
classified as government (the keyword list contains forest). -/
theorem classification_scenarios :
    (∀ raw : List Char, (∃ l r, raw = l ++ ("Comunidade of Tiswadi".data) ++ r) →
      is_comunidade raw = true) ∧
    (∀ raw : List Char, (∃ l r, raw = l ++ ("Forest Department, Panaji".data) ++ r) →
      is_government raw = true) := by
  constructor
  · rintro raw ⟨l, r, rfl⟩
    unfold is_comunidade
    rw [List.any_eq_true]
    refine ⟨("Comunidade".data), by decide, ?_⟩
    unfold containsCI lowerL
    rw [List.map_append, List.map_append]
    rw [show List.map Char.toLower ("Comunidade of Tiswadi".data) =
      ("comunidade".data) ++ (" of tiswadi".data) from by decide]
    rw [show List.map Char.toLower ("Comunidade".data) = ("comunidade".data)
      from by decide]
    rw [← List.append_assoc, List.append_assoc]
    exact containsSeq_of_append _ _ _
  · rintro raw ⟨l, r, rfl⟩
    unfold is_government
    rw [List.any_eq_true]
    refine ⟨("forest".data), by decide, ?_⟩
    unfold containsCI lowerL
    rw [List.map_append, List.map_append]
    rw [show List.map Char.toLower ("Forest Department, Panaji".data) =
      ("forest".data) ++ (" department, panaji".data) from by decide]
    rw [show List.map Char.toLower ("forest".data) = ("forest".data)
      from by decide]
    rw [← List.append_assoc, List.append_assoc]
    exact containsSeq_of_append _ _ _

/-- Witness for `classification_scenarios` at concrete raw texts. -/
theorem classification_scenarios_witness :
    is_comunidade ("Owner: Comunidade of Tiswadi (village)".data) = true ∧
    is_government ("Forest Department, Panaji".data) = true :=
  ⟨classification_scenarios.1 _ ⟨("Owner: ".data), (" (village)".data), by decide⟩,
   classification_scenarios.2 _ ⟨[], [], by decide⟩⟩

/-- C10: the government keyword list contains the token consisting of the
word block followed by two spaces, so any raw text whose lowercasing
contains that token is classified as government. -/
theorem government_block_double_space :
    ("block  ".data) ∈ government_keywords ∧
    ∀ raw : List Char, (∃ l r, lowerL raw = l ++ ("block  ".data) ++ r) →
      is_government raw = true := by
  constructor
  · decide
  · rintro raw ⟨l, r, heq⟩
    unfold is_government
    rw [List.any_eq_true]
    refine ⟨("block  ".data), by decide, ?_⟩
    unfold containsCI
    rw [show lowerL ("block  ".data) = ("block  ".data) from by decide, heq]
    exact containsSeq_of_append _ _ _

/-- Witness for `government_block_double_space` at a concrete raw text. -/
theorem government_block_double_space_witness :
    is_government ("Survey Block  7".data) = true :=
  government_block_double_space.2 _ ⟨("survey ".data), ("7".data), by decide⟩

/-- C1: for every input, the returned occupant count equals the length of
the occupant name list, and likewise for tenants (source lines 151–152
and 180–181 set each count to the length of the corresponding list). -/
theorem parse_counts_match_names (x : Option (List Char)) :
    (parse_owners_raw_field x).occupant_count =
      (parse_owners_raw_field x).occupant_names.length ∧
    (parse_owners_raw_field x).tenant_count =
      (parse_owners_raw_field x).tenant_names.length := by
  cases x with
  | none => exact ⟨rfl, rfl⟩
  | some raw => exact ⟨rfl, rfl⟩

/-- C2: the extractor is total (it is a Lean function, hence never
raises), and missing or non-string input yields the all-default result:
zero counts, empty name lists, empty remarks (source lines 100–107). -/
theorem parse_none_is_default :
    parse_owners_raw_field none = defaultParsedOwnerInfo ∧
    defaultParsedOwnerInfo.occupant_count = 0 ∧
    defaultParsedOwnerInfo.occupant_names = [] ∧
    defaultParsedOwnerInfo.tenant_count = 0 ∧
    defaultParsedOwnerInfo.tenant_names = [] ∧
    defaultParsedOwnerInfo.remarks = [] :=
  ⟨rfl, rfl, rfl, rfl, rfl, rfl⟩

set_option maxRecDepth 4096

/-- C4: the spec scenario input with a numbered occupants list, a
percent-prefixed name, a nil tenants section and a Total Area field. -/
theorem scenario_numbered_list :
    (parse_owners_raw_field (some
      (("Occupants Names: 1). Jose Fernandes 2). %Maria Souza, Tenants names: nil Total Area: 500 sq m").data))).occupant_names
        = [("Jose Fernandes".data), ("Maria Souza".data)] ∧
    (parse_owners_raw_field (some
      (("Occupants Names: 1). Jose Fernandes 2). %Maria Souza, Tenants names: nil Total Area: 500 sq m").data))).occupant_count = 2 ∧
    (parse_owners_raw_field (some
      (("Occupants Names: 1). Jose Fernandes 2). %Maria Souza, Tenants names: nil Total Area: 500 sq m").data))).tenant_names = [] ∧
    (parse_owners_raw_field (some
      (("Occupants Names: 1). Jose Fernandes 2). %Maria Souza, Tenants names: nil Total Area: 500 sq m").data))).tenant_count = 0 := by
  refine ⟨?_, ?_, ?_, ?_⟩ <;> decide

theorem dropWhile_head_false {p : Char → Bool} :
    ∀ {l rest : List Char} {c : Char}, l.dropWhile p = c :: rest → p c = false := by
  intro l
  induction l with
  | nil => intro rest c h; exact absurd h (by simp)
  | cons a as ih =>
    intro rest c h
    rw [List.dropWhile_cons] at h
    split at h
    · exact ih h
    · cases h
      rename_i hp
      simpa using hp

theorem exists_append_dropWhile (p : Char → Bool) :
    ∀ l : List Char, ∃ w, w ++ l.dropWhile p = l := by
  intro l
  induction l with
  | nil => exact ⟨[], rfl⟩
  | cons a as ih =>
    by_cases hp : p a
    · obtain ⟨w, hw⟩ := ih
      refine ⟨a :: w, ?_⟩
      simp [List.dropWhile_cons, hp]
      exact hw
    · exact ⟨[], by simp [List.dropWhile_cons, hp]⟩

/-- A nonempty stripped string starts with a non-whitespace character. -/
theorem pyStrip_head : ∀ {l rest : List Char} {c : Char},
    pyStrip l = c :: rest → pyIsSpace c = false := by
  intro l rest c h
  unfold pyStrip at h
  obtain ⟨w, hw⟩ := exists_append_dropWhile pyIsSpace (l.dropWhile pyIsSpace).reverse
  have hrev := congrArg List.reverse hw
  rw [List.reverse_append, List.reverse_reverse] at hrev
  rw [h] at hrev
  have hu : l.dropWhile pyIsSpace = c :: (rest ++ w.reverse) := by
    simpa using hrev.symm
  exact dropWhile_head_false hu

theorem acceptable_spec {n : List Char} (h : acceptable n = true) :
    n ≠ [] ∧ lowerL n ∉ placeholderList := by
  unfold acceptable at h
  rw [Bool.and_eq_true, decide_eq_true_iff, decide_eq_true_iff] at h
  exact h

/-- A nonempty cleaned name is not whitespace-only: the cleaning pipeline
ends with a strip followed by whitespace collapsing, so a nonempty result
starts with a non-whitespace character. -/
theorem cleanName_not_blank {part : List Char} (hne : cleanName part ≠ []) :
    (cleanName part).all pyIsSpace = false := by
  unfold cleanName at hne ⊢
  rcases hy : pyStrip (stripTrailingCommaWs (pyStrip (stripLeadingSymbols part))) with
    _ | ⟨c, rest⟩
  · simp [hy, collapseWs, collapseWsAux] at hne
  · have hc : pyIsSpace c = false := pyStrip_head hy
    simp [collapseWs, collapseWsAux, hc]

/-- Every name accumulated by `addNames` from an accumulator of good
names is nonempty, not whitespace-only, and not a placeholder. -/
theorem addNames_mem : ∀ (parts acc : List (List Char)) (n : List Char),
    (∀ m ∈ acc, m ≠ [] ∧ m.all pyIsSpace = false ∧ lowerL m ∉ placeholderList) →
    n ∈ addNames parts acc →
    n ≠ [] ∧ n.all pyIsSpace = false ∧ lowerL n ∉ placeholderList := by
  intro parts
  induction parts with
  | nil => intro acc n hacc hn; exact hacc n hn
  | cons part rest ih =>
    intro acc n hacc hn
    unfold addNames at hn
    split at hn
    · exact ih acc n hacc hn
    · split at hn
      · rename_i hcond
        refine ih _ n ?_ hn
        intro m hm
        rcases List.mem_append.mp hm with hm | hm
        · exact hacc m hm
        · have hm' : m = cleanName (pyStrip part) := by simpa using hm
          subst hm'
          obtain ⟨hnn, hpl⟩ := acceptable_spec hcond.1
          exact ⟨hnn, cleanName_not_blank hnn, hpl⟩
      · exact ih acc n hacc hn

/-- C8: no extracted occupant or tenant name is empty, whitespace-only,
or (after lowercasing) one of the placeholder tokens. -/
theorem names_never_placeholder (x : Option (List Char)) (n : List Char)
    (h : n ∈ (parse_owners_raw_field x).occupant_names ∨
         n ∈ (parse_owners_raw_field x).tenant_names) :
    n ≠ [] ∧ n.all pyIsSpace = false ∧ lowerL n ∉ placeholderList := by
  cases x with
  | none =>
    rcases h with h | h <;>
      exact absurd h (by simp [parse_owners_raw_field, defaultParsedOwnerInfo])
  | some raw =>
    have hON : (parse_owners_raw_field (some raw)).occupant_names =
        (match occSearch (pyStrip raw) with
         | none => []
         | some cap => addNames (occParts (pyStrip cap)) []) := rfl
    have hTN : (parse_owners_raw_field (some raw)).tenant_names =
        (match tenSearch (pyStrip raw) with
         | none => []
         | some cap => addNames (tenParts (pyStrip cap)) []) := rfl
    rcases h with h | h
    · rw [hON] at h
      rcases hs : occSearch (pyStrip raw) with _ | cap
      · rw [hs] at h; exact absurd h (by simp)
      · rw [hs] at h
        exact addNames_mem _ [] n (by simp) h
    · rw [hTN] at h
      rcases hs : tenSearch (pyStrip raw) with _ | cap
      · rw [hs] at h; exact absurd h (by simp)
      · rw [hs] at h
        exact addNames_mem _ [] n (by simp) h

/-- Witness for `names_never_placeholder` at a concrete input and name. -/
theorem names_never_placeholder_witness :
    ("Bob".data) ≠ [] ∧ ("Bob".data).all pyIsSpace = false ∧
      lowerL ("Bob".data) ∉ placeholderList :=
  names_never_placeholder (some (("Occupants Names: Bob").data)) ("Bob".data)
    (Or.inl (by decide))

/-- The cleaned fragments that pass the per-fragment guards (non-blank
fragment, nonempty cleaned name, not a placeholder), in encounter order,
duplicates included. -/
def candidateNames (parts : List (List Char)) : List (List Char) :=
  (((parts.map pyStrip).filter (fun p => decide (p ≠ []))).map cleanName).filter acceptable

/-- First-occurrence deduplication: keep each element the first time it
appears, preserving order. -/
def keepFirst : List (List Char) → List (List Char)
  | [] => []
  | x :: xs => x :: keepFirst (xs.filter (fun y => decide (y ≠ x)))
termination_by l => l.length
decreasing_by
  simp only [List.length_cons]
  have h : (xs.filter (fun y => decide (y ≠ x))).length ≤ xs.length := by
    apply List.Sublist.length_le
    apply List.filter_sublist
  omega

theorem keepFirst_nil : keepFirst [] = [] := by
  unfold keepFirst
  rfl

theorem keepFirst_cons (x : List Char) (xs : List (List Char)) :
    keepFirst (x :: xs) = x :: keepFirst (xs.filter (fun y => decide (y ≠ x))) := by
  conv_lhs => unfold keepFirst

theorem candidateNames_cons (part : List Char) (rest : List (List Char)) :
    candidateNames (part :: rest) =
      if pyStrip part = [] then candidateNames rest
      else if acceptable (cleanName (pyStrip part)) = true then
        cleanName (pyStrip part) :: candidateNames rest
      else candidateNames rest := by
  unfold candidateNames
  by_cases h1 : pyStrip part = []
  · simp [h1]
  · by_cases h2 : acceptable (cleanName (pyStrip part)) = true
    · simp [h1, h2]
    · simp [h1, Bool.eq_false_iff.mpr h2]

theorem addNames_cons_blank (part : List Char) (rest names : List (List Char))
    (h1 : pyStrip part = []) :
    addNames (part :: rest) names = addNames rest names := by
  simp only [addNames, if_pos h1]

theorem addNames_cons_skip (part : List Char) (rest names : List (List Char))
    (h1 : pyStrip part ≠ [])
    (h2 : ¬ (acceptable (cleanName (pyStrip part)) = true ∧
      cleanName (pyStrip part) ∉ names)) :
    addNames (part :: rest) names = addNames rest names := by
  simp only [addNames, if_neg h1, if_neg h2]

theorem addNames_cons_keep (part : List Char) (rest names : List (List Char))
    (h1 : pyStrip part ≠ [])
    (h2 : acceptable (cleanName (pyStrip part)) = true ∧
      cleanName (pyStrip part) ∉ names) :
    addNames (part :: rest) names =
      addNames rest (names ++ [cleanName (pyStrip part)]) := by
  simp only [addNames, if_neg h1, if_pos h2]

theorem addNames_eq_keepFirst_filter : ∀ (parts names : List (List Char)),
    addNames parts names =
      names ++ keepFirst ((candidateNames parts).filter (fun c => decide (c ∉ names))) := by
  intro parts
  induction parts with
  | nil =>
    intro names
    simp [addNames, candidateNames, keepFirst_nil]
  | cons part rest ih =>
    intro names
    rw [candidateNames_cons]
    by_cases h1 : pyStrip part = []
    · rw [if_pos h1, addNames_cons_blank part rest names h1]
      exact ih names
    · rw [if_neg h1]
      by_cases h2 : acceptable (cleanName (pyStrip part)) = true
      · rw [if_pos h2]
        by_cases h3 : cleanName (pyStrip part) ∈ names
        · rw [addNames_cons_skip part rest names h1 (by intro hc; exact hc.2 h3),
            ih names, List.filter_cons, if_neg (by simp [h3])]
        · have hfilter :
              (candidateNames rest).filter
                  (fun c => decide (c ∉ names ++ [cleanName (pyStrip part)])) =
              ((candidateNames rest).filter (fun c => decide (c ∉ names))).filter
                (fun y => decide (y ≠ cleanName (pyStrip part))) := by
            rw [List.filter_filter]
            apply List.filter_congr
            intro a _
            by_cases ha1 : a ∈ names
            · simp [ha1]
            · by_cases ha2 : a = cleanName (pyStrip part)
              · simp [ha1, ha2]
              · simp [ha1, ha2]
          rw [addNames_cons_keep part rest names h1 ⟨h2, h3⟩,
            ih (names ++ [cleanName (pyStrip part)]),
            List.filter_cons, if_pos (by simp [h3]), keepFirst_cons, hfilter,
            List.append_assoc]
          rfl
      · rw [if_neg h2,
          addNames_cons_skip part rest names h1 (by intro hc; exact h2 hc.1)]
        exact ih names

/-- `addNames` from an empty accumulator is exactly first-occurrence
deduplication of the guarded candidate sequence. -/
theorem addNames_keepFirst (parts : List (List Char)) :
    addNames parts [] = keepFirst (candidateNames parts) := by
  rw [addNames_eq_keepFirst_filter]
  simp

theorem keepFirst_mem_aux : ∀ (n : Nat) (l : List (List Char)), l.length ≤ n →
    ∀ x, x ∈ keepFirst l → x ∈ l := by
  intro n
  induction n with
  | zero =>
    intro l hl x hx
    have hnil : l = [] := List.length_eq_zero.mp (Nat.le_zero.mp hl)
    subst hnil
    rw [keepFirst_nil] at hx
    exact absurd hx (by simp)
  | succ n ih =>
    intro l hl x hx
    cases l with
    | nil =>
      rw [keepFirst_nil] at hx
      exact absurd hx (by simp)
    | cons y ys =>
      rw [keepFirst_cons] at hx
      rcases List.mem_cons.mp hx with h | h
      · exact h ▸ List.mem_cons_self _ _
      · have hlen : (ys.filter (fun z => decide (z ≠ y))).length ≤ n := by
          have hle : (ys.filter (fun z => decide (z ≠ y))).length ≤ ys.length := by
            apply List.Sublist.length_le
            apply List.filter_sublist
          simp at hl
          omega
        exact List.mem_cons_of_mem _ (List.mem_of_mem_filter (ih _ hlen x h))

theorem keepFirst_mem (l : List (List Char)) (x : List Char)
    (hx : x ∈ keepFirst l) : x ∈ l :=
  keepFirst_mem_aux l.length l (Nat.le_refl _) x hx

theorem keepFirst_nodup_aux : ∀ (n : Nat) (l : List (List Char)), l.length ≤ n →
    (keepFirst l).Nodup := by
  intro n
  induction n with
  | zero =>
    intro l hl
    have hnil : l = [] := List.length_eq_zero.mp (Nat.le_zero.mp hl)
    subst hnil
    rw [keepFirst_nil]
    exact List.nodup_nil
  | succ n ih =>
    intro l hl
    cases l with
    | nil =>
      rw [keepFirst_nil]
      exact List.nodup_nil
    | cons y ys =>
      rw [keepFirst_cons]
      have hlen : (ys.filter (fun z => decide (z ≠ y))).length ≤ n := by
        have hle : (ys.filter (fun z => decide (z ≠ y))).length ≤ ys.length := by
          apply List.Sublist.length_le
          apply List.filter_sublist
        simp at hl
        omega
      refine List.nodup_cons.mpr ⟨?_, ih _ hlen⟩
      intro hy
      have hmem := keepFirst_mem _ _ hy
      have := List.of_mem_filter hmem
      simp at this

theorem keepFirst_nodup (l : List (List Char)) : (keepFirst l).Nodup :=
  keepFirst_nodup_aux l.length l (Nat.le_refl _)

/-- C9: each extracted name list is duplicate-free under exact
comparison, and the accumulation loop produces exactly the
first-occurrence deduplication of the guarded candidate sequence,
preserving encounter order. -/
theorem names_nodup_first_occurrence :
    (∀ x : Option (List Char),
      (parse_owners_raw_field x).occupant_names.Nodup ∧
      (parse_owners_raw_field x).tenant_names.Nodup) ∧
    (∀ parts : List (List Char),
      addNames parts [] = keepFirst (candidateNames parts)) := by
  constructor
  · intro x
    cases x with
    | none =>
      constructor <;> simp [parse_owners_raw_field, defaultParsedOwnerInfo]
    | some raw =>
      have hON : (parse_owners_raw_field (some raw)).occupant_names =
          (match occSearch (pyStrip raw) with
           | none => []
           | some cap => addNames (occParts (pyStrip cap)) []) := rfl
      have hTN : (parse_owners_raw_field (some raw)).tenant_names =
          (match tenSearch (pyStrip raw) with
           | none => []
           | some cap => addNames (tenParts (pyStrip cap)) []) := rfl
      constructor
      · rw [hON]
        rcases hs : occSearch (pyStrip raw) with _ | cap
        · simp
        · show (addNames (occParts (pyStrip cap)) []).Nodup
          rw [addNames_keepFirst]
          exact keepFirst_nodup _
      · rw [hTN]
        rcases hs : tenSearch (pyStrip raw) with _ | cap
        · simp
        · show (addNames (tenParts (pyStrip cap)) []).Nodup
          rw [addNames_keepFirst]
          exact keepFirst_nodup _
  · exact addNames_keepFirst

/-- Boundary claimed by the specification: a run of five or more dash or
equals characters begins here. -/
def specDashEq5 (t : List Char) : Bool :=
  match t with
  | a :: b :: c :: d :: e :: _ =>
    isDashEq a && isDashEq b && isDashEq c && isDashEq d && isDashEq e
  | _ => false

/-- The occupants-section boundary as the specification states it:
Tenants label, Total Area label, 5+ dash-or-equals run, or end of text. -/
def specOccBound (t : List Char) : Bool :=
  (tenLabel t).isSome || (totalLabel t).isSome || specDashEq5 t || t.isEmpty

/-- The section-isolation property asserted by the specification for a
boundary predicate `B`: whenever a section is extracted, it occurs in the
text, a boundary follows immediately after it, and no boundary occurs
strictly inside it (after its first character). -/
def SectionClaim (search : List Char → Option (List Char)) (B : List Char → Bool)
    (t : List Char) : Prop :=
  ∀ cap ∈ (search t).toList,
    ∃ m < t.length + 1,
      (t.drop m).take cap.length = cap ∧
      B (t.drop (m + cap.length)) = true ∧
      ∀ i < cap.length - 1, B (t.drop (m + i + 1)) = false

set_option maxRecDepth 8192

/-- Counterexample to C3 as stated: on this input the extracted occupants
section is the whole tail `A ===== B`, which contains a five-equals run
strictly inside it — the code regex only stops at a run of seven or more
dashes (`-------`), never at equals runs or five-dash runs. -/
theorem section_boundary_counterexample :
    ¬ SectionClaim occSearch specOccBound (("Occupants Names: A ===== B").data) := by
  unfold SectionClaim
  decide

theorem lazyCapture_spec {B : List Char → Bool} :
    ∀ {s cap : List Char}, lazyCapture B s = some cap →
      cap ≠ [] ∧ ∃ rest, s = cap ++ rest ∧ B rest = true ∧
        ∀ j, 0 < j → j < cap.length → B (cap.drop j ++ rest) = false := by
  intro s
  induction s with
  | nil => intro cap h; exact absurd h (by simp [lazyCapture])
  | cons c rest ih =>
    intro cap h
    unfold lazyCapture at h
    split at h
    · rename_i hB
      cases h
      refine ⟨by simp, rest, rfl, hB, ?_⟩
      intro j hj0 hj1
      simp at hj1
      omega
    · rename_i hB
      rcases hm : lazyCapture B rest with _ | cap'
      · rw [hm] at h
        exact absurd h (by simp)
      · rw [hm] at h
        have hcap : cap = c :: cap' := by simpa using h.symm
        subst hcap
        obtain ⟨hne, rest', hr, hBr, hin⟩ := ih hm
        refine ⟨by simp, rest', by rw [hr, List.cons_append], hBr, ?_⟩
        intro j hj0 hj1
        have hBrest : B rest = false := Bool.eq_false_iff.mpr hB
        cases j with
        | zero => omega
        | succ j' =>
          cases j' with
          | zero =>
            show B ((c :: cap').drop 1 ++ rest') = false
            have hd : (c :: cap').drop 1 ++ rest' = rest := by
              simp [hr]
            rw [hd]
            exact hBrest
          | succ j'' =>
            have h1 : 0 < j'' + 1 := Nat.succ_pos _
            have h2 : j'' + 1 < cap'.length := by
              simp at hj1
              omega
            have := hin (j'' + 1) h1 h2
            simpa using this

theorem wsBacktrack_spec {B : List Char → Bool} {r cap : List Char} :
    ∀ {k₀ : Nat}, wsBacktrack B r k₀ = some cap →
      ∃ k ≤ k₀, lazyCapture B (r.drop k) = some cap := by
  intro k₀
  induction k₀ with
  | zero =>
    intro h
    unfold wsBacktrack at h
    refine ⟨0, Nat.le_refl _, ?_⟩
    rw [List.drop_zero]
    exact h
  | succ k ih =>
    intro h
    unfold wsBacktrack at h
    split at h
    · rename_i cap' heq
      cases h
      exact ⟨k + 1, Nat.le_refl _, heq⟩
    · obtain ⟨k', hk', hl⟩ := ih h
      exact ⟨k', Nat.le_succ_of_le hk', hl⟩

theorem searchCapture_spec {label : List Char → Option (List Char)}
    {B : List Char → Bool} :
    ∀ {t cap : List Char}, searchCapture label B t = some cap →
      ∃ pre s, t = pre ++ s ∧ ∃ r, label s = some r ∧ captureGroup B r = some cap := by
  intro t
  induction t with
  | nil => intro cap h; exact absurd h (by simp [searchCapture])
  | cons c rest ih =>
    intro cap h
    unfold searchCapture at h
    split at h
    · rename_i r hr
      split at h
      · rename_i cap' hcg
        cases h
        exact ⟨[], c :: rest, rfl, r, hr, hcg⟩
      · obtain ⟨pre, s, hts, hrest⟩ := ih h
        exact ⟨c :: pre, s, by rw [hts, List.cons_append], hrest⟩
    · obtain ⟨pre, s, hts, hrest⟩ := ih h
      exact ⟨c :: pre, s, by rw [hts, List.cons_append], hrest⟩

/-- The nearest-boundary section property actually implemented by the
code, for label `label` and lookahead `B`: the section starts right after
the label (after backtracking over the greedy whitespace skip), is
nonempty, a boundary holds immediately after it, and no boundary holds
strictly inside it after its first character. -/
def SectionAt (label : List Char → Option (List Char)) (B : List Char → Bool)
    (t cap : List Char) : Prop :=
  ∃ pre s r rest,
    t = pre ++ s ∧ label s = some r ∧
    (∃ k ≤ (r.takeWhile pyIsSpace).length, r.drop k = cap ++ rest) ∧
    cap ≠ [] ∧ B rest = true ∧
    ∀ j, 0 < j → j < cap.length → B (cap.drop j ++ rest) = false

/-- C3, amended: each extracted section runs from its label up to (not
including) the nearest following boundary, where the boundaries are the
Tenants names label, the Total Area label, a run of seven or more dashes,
or end of text for the occupants section — and the Total Area label, a
7+ dash run, or end of text for the tenants section.  Runs of equals
signs and runs of fewer than seven dashes do not bound a section. -/
theorem section_nearest_boundary :
    (∀ t cap : List Char, occSearch t = some cap → SectionAt occLabel occBound t cap) ∧
    (∀ t cap : List Char, tenSearch t = some cap → SectionAt tenLabel tenBound t cap) := by
  constructor
  · intro t cap h
    obtain ⟨pre, s, hts, r, hlab, hcg⟩ := searchCapture_spec h
    unfold captureGroup at hcg
    obtain ⟨k, hk, hlz⟩ := wsBacktrack_spec hcg
    obtain ⟨hne, rest, hsplit, hB, hin⟩ := lazyCapture_spec hlz
    exact ⟨pre, s, r, rest, hts, hlab, ⟨k, hk, hsplit⟩, hne, hB, hin⟩
  · intro t cap h
    obtain ⟨pre, s, hts, r, hlab, hcg⟩ := searchCapture_spec h
    unfold captureGroup at hcg
    obtain ⟨k, hk, hlz⟩ := wsBacktrack_spec hcg
    obtain ⟨hne, rest, hsplit, hB, hin⟩ := lazyCapture_spec hlz
    exact ⟨pre, s, r, rest, hts, hlab, ⟨k, hk, hsplit⟩, hne, hB, hin⟩

/-- Witness for `section_nearest_boundary` at a concrete text whose
occupants section is bounded by the Total Area label. -/
theorem section_nearest_boundary_witness :
    SectionAt occLabel occBound (("Occupants Names: X Total Area: 5").data)
      (("X ").data) :=
  section_nearest_boundary.1 _ _ (by decide)
